/-
Verification of `sync_last6h_append.js`: an incremental Mongo → spreadsheet
export pipeline.  The script queries all documents whose ObjectId is at or
after a cutoff derived from `now - 6h`, flattens them to dotted-key rows,
unifies the destination header with the newly observed keys, and appends the
materialized rows to the destination sheet.

The embedding below models:
  * JavaScript values occurring in documents (`JSValue`);
  * the `flatten` function (source lines 31–44);
  * ObjectId construction/ordering as 96-bit naturals, with
    `ObjectId.createFromTime` as `oidCutoff` (lines 100–101);
  * the window query `find({_id: {$gte: cutoff}}).sort({_id: 1})` (line 104);
  * header collection (lines 116–124), header unification (lines 140–145),
    the conditional header write (lines 147–167), row materialization
    (lines 170–176) and the append (lines 179–185), packaged as `runSync`
    together with an effect record of sink operations.
-/
import Mathlib

set_option linter.unusedVariables false

/-- JavaScript values that can occur in a BSON document, as seen by the
script.  Numbers are modelled as integers (documents in this collection hold
no fractional values the claims depend on); a `Date` carries its two string
renderings: `iso` for `toJSON`/`JSON.stringify` and `display` for
`String(d)`. -/
inductive JSValue where
  | null
  | str (s : String)
  | num (n : Int)
  | bool (b : Bool)
  | date (iso display : String)
  | arr (elems : List JSValue)
  | obj (fields : List (String × JSValue))

/-- The regex replacement `prefix.replace(/\.$/, "")` from lines 33/37:
drop a single trailing `'.'` if present. -/
def stripDot (s : String) : String :=
  if s.data.getLast? = some '.' then ⟨s.data.dropLast⟩ else s

/-- The JS assignment `out[key] = v`: overwrite in place if the key is
already present (keeping its position), otherwise append at the end.
Models the key-ordering semantics of a JS object used as a map. -/
def insertFlat (out : List (String × JSValue)) (k : String) (v : JSValue) :
    List (String × JSValue) :=
  if out.any (fun p => p.1 = k) then
    out.map (fun p => if p.1 = k then (k, v) else p)
  else out ++ [(k, v)]

mutual
/-- `flatten(obj, prefix, out)` from source lines 31–44.  `null`/scalars,
`Date`s and arrays are emitted as leaves under the current (dot-stripped)
prefix; plain objects recurse into each key with `prefix + key + "."`.
(When `prefix` is empty the JS template produces `key + "."`, which equals
`"" ++ key ++ "."`, so the concatenation is uniform.) -/
def flatten : JSValue → String → List (String × JSValue) → List (String × JSValue)
  | .null, pre, out => insertFlat out (stripDot pre) .null
  | .str s, pre, out => insertFlat out (stripDot pre) (.str s)
  | .num n, pre, out => insertFlat out (stripDot pre) (.num n)
  | .bool b, pre, out => insertFlat out (stripDot pre) (.bool b)
  | .date i d, pre, out => insertFlat out (stripDot pre) (.date i d)
  | .arr xs, pre, out => insertFlat out (stripDot pre) (.arr xs)
  | .obj fields, pre, out => flattenFields fields pre out

/-- The `for (const key of Object.keys(obj))` loop of lines 40–42. -/
def flattenFields : List (String × JSValue) → String → List (String × JSValue) →
    List (String × JSValue)
  | [], _, out => out
  | (k, v) :: rest, pre, out => flattenFields rest pre (flatten v (pre ++ k ++ ".") out)
end

/-- `true` on the values for which line 172's test
`Array.isArray(v) || (typeof v === "object" && v !== null)` holds:
arrays, plain objects and `Date`s (a `Date` has `typeof === "object"`). -/
def isJsObject : JSValue → Bool
  | .arr _ => true
  | .obj _ => true
  | .date _ _ => true
  | _ => false

mutual
/-- `JSON.stringify` restricted to the value shapes above.  String escaping
is not modelled (no claim depends on it); a `Date` serializes via its
`toJSON` ISO form, in quotes. -/
def jsonStr : JSValue → String
  | .null => "null"
  | .str s => "\"" ++ s ++ "\""
  | .num n => toString n
  | .bool b => if b then "true" else "false"
  | .date iso _ => "\"" ++ iso ++ "\""
  | .arr xs => "[" ++ jsonStrList xs ++ "]"
  | .obj fs => "\x7b" ++ jsonStrFields fs ++ "\x7d"

def jsonStrList : List JSValue → String
  | [] => ""
  | [v] => jsonStr v
  | v :: rest => jsonStr v ++ "," ++ jsonStrList rest

def jsonStrFields : List (String × JSValue) → String
  | [] => ""
  | [(k, v)] => "\"" ++ k ++ "\":" ++ jsonStr v
  | (k, v) :: rest => "\"" ++ k ++ "\":" ++ jsonStr v ++ "," ++ jsonStrFields rest
end

/-- One cell of the materialized row, from lines 171–175: objects (arrays,
plain objects, `Date`s) are `JSON.stringify`ed; `null` renders as `""`;
remaining scalars render via `String(v)` (a string as itself, a number or
boolean via its decimal/`true`/`false` form).  The JS `try/catch` around
`JSON.stringify` cannot fire on these value shapes (no cycles, no BigInt),
so serialization is total here.  The final catch-all of the match is
unreachable: every `isJsObject` value was already handled. -/
def renderCell (v : JSValue) : String :=
  if isJsObject v then jsonStr v
  else match v with
    | .null => ""
    | .str s => s
    | .num n => toString n
    | .bool b => if b then "true" else "false"
    | _ => ""

/-- An ObjectId modelled as its 96-bit big-endian value: byte-wise BSON
comparison of ObjectIds coincides with numeric comparison, and the
4-byte creation timestamp occupies the top 32 bits. -/
def oidTimestamp (oid : Nat) : Nat := oid / 2 ^ 64

/-- `ObjectId.createFromTime(t)`: timestamp in the top 4 bytes, all other
bytes zero — the smallest ObjectId with that timestamp. -/
def oidFromTime (t : Nat) : Nat := t * 2 ^ 64

/-- `ObjectId.toString()`: the 24-digit lowercase hex form. -/
def oidStr (oid : Nat) : String :=
  let digits := Nat.toDigits 16 oid
  ⟨List.replicate (24 - digits.length) '0' ++ digits⟩

/-- A stored document: its `_id` (an ObjectId) and its remaining fields in
BSON order. -/
structure StoredDoc where
  oid : Nat
  fields : List (String × JSValue)

/-- Lines 100–101: `sixHoursAgo = new Date(Date.now() - 6*60*60*1000)` and
`oidCutoff = ObjectId.createFromTime(Math.floor(sixHoursAgo.getTime() / 1000))`.
`now` is in milliseconds. -/
def oidCutoff (now : Nat) : Nat := oidFromTime ((now - 6 * 60 * 60 * 1000) / 1000)

/-- Line 104: `coll.find({ _id: { $gte: oidCutoff } }).sort({ _id: 1 })` —
all stored documents with `_id ≥ cutoff`, ascending by `_id`. -/
def selectWindow (now : Nat) (store : List StoredDoc) : List StoredDoc :=
  (store.filter (fun d => oidCutoff now ≤ d.oid)).insertionSort
    (fun a b => a.oid ≤ b.oid)

/-- Lines 119–121: `copy = {...d}; copy._id = copy._id.toString();
flatten(copy)`.  The document enters `flatten` with its `_id` replaced by
its hex string (BSON puts `_id` first). -/
def docToFlat (d : StoredDoc) : List (String × JSValue) :=
  flatten (.obj (("_id", .str (oidStr d.oid)) :: d.fields)) "" []

/-- `headerSet.add k` for a JS `Set` modelled as an insertion-ordered
duplicate-free list. -/
def setAdd (acc : List String) (k : String) : List String :=
  if acc.contains k then acc else acc ++ [k]

/-- Lines 117–124: the insertion-ordered key set collected by
`Object.keys(flat).forEach(k => headerSet.add(k))` over all flattened
rows. -/
def collectKeys (rows : List (List (String × JSValue))) : List String :=
  rows.foldl (fun acc r => (r.map Prod.fst).foldl setAdd acc) []

/-- Lines 141–145: keep the existing header order and append the observed
keys not already present. -/
def unifyHeaders (existingHeader headerSet : List String) : List String :=
  let headers := if existingHeader.length > 0 then existingHeader else headerSet
  if existingHeader.length > 0 then
    headers ++ headerSet.filter (fun h => !headers.contains h)
  else headers

/-- Line 171: `Object.prototype.hasOwnProperty.call(obj, h) ? obj[h] : ""`,
as an option. -/
def lookupFlat (r : List (String × JSValue)) (h : String) : Option JSValue :=
  (r.find? (fun p => p.1 = h)).map Prod.snd

/-- Lines 170–176: one output row, positionally aligned to `headers`. -/
def materializeRow (headers : List String) (r : List (String × JSValue)) :
    List String :=
  headers.map (fun h =>
    match lookupFlat r h with
    | none => ""
    | some v => renderCell v)

/-- The destination sheet: its header row and its data rows. -/
structure Sheet where
  header : List String
  rows : List (List String)
deriving Repr, DecidableEq

/-- The sink operations one run performs: whether the header range was
read, the header row written (in full, before any append) if any, and the
data rows appended. -/
structure RunEffects where
  headerRead : Bool
  headerWrite : Option (List String)
  appended : List (List String)
deriving Repr, DecidableEq

/-- The non-empty-window part of a run (lines 113–187): flatten the window
documents, read the existing header (a `readFault` is swallowed by the
`try/catch` of lines 129–138 and yields an empty existing header), unify
the header, write it when there was none or when new columns were appended
(lines 147–167), and append the materialized rows after existing content
(lines 179–185). -/
def runSyncCore (now : Nat) (store : List StoredDoc) (sheet : Sheet)
    (readFault : Bool) : Sheet × RunEffects :=
  let docs := selectWindow now store
  let rowsFlat := docs.map docToFlat
  let headerSet := collectKeys rowsFlat
  let existingHeader := if readFault then [] else sheet.header
  let headers := unifyHeaders existingHeader headerSet
  let headerWrite :=
    if existingHeader.length = 0 then some headers
    else if existingHeader.length < headers.length then some headers
    else none
  let values := rowsFlat.map (fun r => materializeRow headers r)
  ({ header := match headerWrite with
      | some hs => hs
      | none => sheet.header,
     rows := sheet.rows ++ values },
   ⟨true, headerWrite, values⟩)

/-- One run of `main` (lines 100–187), with connection/credential glue
abstracted away.  The empty-window early exit (lines 107–111) touches the
sink not at all; otherwise the run proceeds with `runSyncCore`. -/
def runSync (now : Nat) (store : List StoredDoc) (sheet : Sheet)
    (readFault : Bool) : Sheet × RunEffects :=
  let docs := selectWindow now store
  if docs.isEmpty then (sheet, ⟨false, none, []⟩)
  else runSyncCore now store sheet readFault

/-! Shared concrete inputs for witnesses and counterexamples.  `exT` is a
run instant in milliseconds; document ids place their creation timestamps
relative to `exT` (the window cutoff second is `1699978400`). -/

def exT : Nat := 1700000000000

/-- A document created 7 hours before `exT` (outside the 6-hour window). -/
def exDoc7 : StoredDoc := ⟨1699974800 * 2 ^ 64 + 7, []⟩

/-- A document created 5 hours before `exT` (inside the window). -/
def exDoc5 : StoredDoc := ⟨1699982000 * 2 ^ 64 + 5, []⟩

/-- A document created 1 hour before `exT` (inside the window). -/
def exDoc1 : StoredDoc := ⟨1699996400 * 2 ^ 64 + 1, []⟩

def exIdA : Nat := 1699980000 * 2 ^ 64 + 10

def exIdB : Nat := 1699985000 * 2 ^ 64 + 11

def exIdC : Nat := 1699990000 * 2 ^ 64 + 12

/-- A destination sheet that already holds rows for `exIdA` and `exIdB` in
its identifier column. -/
def exSheetAB : Sheet := ⟨["_id"], [[oidStr exIdA], [oidStr exIdB]]⟩

/-- Processing an appended field list flattens the first part, then the
second, threading the accumulator. -/
theorem flattenFields_append (l₁ l₂ : List (String × JSValue)) (pre : String)
    (out : List (String × JSValue)) :
    flattenFields (l₁ ++ l₂) pre out = flattenFields l₂ pre (flattenFields l₁ pre out) := by
  induction l₁ generalizing out with
  | nil => rfl
  | cons p rest ih => cases p; simp [flattenFields, ih]

/-- C9: when the time-window query returns no documents, `main` logs and
returns (lines 107–111): the run succeeds and the sheet is untouched — no
header read, no header write, no append. -/
theorem empty_window_no_sink_touch (now : Nat) (store : List StoredDoc)
    (sheet : Sheet) (fault : Bool) (h : selectWindow now store = []) :
    runSync now store sheet fault = (sheet, ⟨false, none, []⟩) := by
  simp [runSync, h]

/-- Witness for C9 at a concrete input: an out-of-window store selects an
empty window, and the run leaves the sheet alone. -/
theorem empty_window_no_sink_touch_witness :
    selectWindow exT [exDoc7] = []
    ∧ runSync exT [exDoc7] exSheetAB false = (exSheetAB, ⟨false, none, []⟩) :=
  ⟨rfl, empty_window_no_sink_touch exT [exDoc7] exSheetAB false rfl⟩

/-- C10: a field whose value is an empty object leaves no trace in the
flattened output: `flatten` of an empty object is the identity on the
accumulator, removing such a field from a record does not change the
flattened result at all, and in particular no dotted key is ever created
for a path whose value is an empty object. -/
theorem empty_object_leaves_no_key :
    (∀ pre out, flatten (.obj []) pre out = out)
    ∧ (∀ (fields₁ fields₂ : List (String × JSValue)) (k : String) (pre : String) out,
        flatten (.obj (fields₁ ++ (k, .obj []) :: fields₂)) pre out
          = flatten (.obj (fields₁ ++ fields₂)) pre out)
    ∧ flatten (.obj [("a", .obj [("b", .obj [])]), ("c", .num 1)]) "" []
        = [("c", .num 1)] := by
  refine ⟨fun pre out => rfl, fun fields₁ fields₂ k pre out => ?_, rfl⟩
  show flattenFields (fields₁ ++ (k, .obj []) :: fields₂) pre out
      = flattenFields (fields₁ ++ fields₂) pre out
  rw [flattenFields_append, flattenFields_append]
  rfl

/-- C7: each materialized row is positionally aligned to the header; an
absent column yields `""`; a `null` value renders as `""`; strings, numbers
and booleans render via their `String(v)` form; arrays, objects and `Date`s
(the values caught by line 172's object test) are serialized with
`JSON.stringify` — whose `try/catch` fallback cannot fire on these value
shapes, so serialization is total in the model; and the spec's concrete
example holds. -/
theorem row_materializer_correct :
    (∀ (headers : List String) (r : List (String × JSValue)),
        materializeRow headers r
          = headers.map (fun h => (lookupFlat r h).elim "" renderCell))
    ∧ (∀ (r : List (String × JSValue)) (h : String),
        (∀ p ∈ r, p.1 ≠ h) → lookupFlat r h = none)
    ∧ renderCell .null = ""
    ∧ (∀ s, renderCell (.str s) = s)
    ∧ (∀ n, renderCell (.num n) = toString n)
    ∧ (∀ b, renderCell (.bool b) = if b then "true" else "false")
    ∧ (∀ v, isJsObject v = true → renderCell v = jsonStr v)
    ∧ materializeRow ["x", "y", "z"] [("x", .str "1")] = ["1", "", ""] := by
  refine ⟨fun headers r => ?_, fun r h hall => ?_, rfl, fun s => rfl, fun n => rfl,
    fun b => rfl, fun v hv => ?_, rfl⟩
  · unfold materializeRow
    congr 1
    funext h
    cases lookupFlat r h <;> rfl
  · have hnone : List.find? (fun p => decide (p.1 = h)) r = none :=
      List.find?_eq_none.mpr (fun p hp => by simpa using hall p hp)
    simp [lookupFlat, hnone]
  · unfold renderCell
    rw [hv]
    simp

/-- Witness for C7: the hypothesis-bearing conjuncts applied at concrete
inputs — the column `y` is absent from `{x: "1"}`, and an array is
JSON-serialized. -/
theorem row_materializer_correct_witness :
    lookupFlat [("x", JSValue.str "1")] "y" = none
    ∧ renderCell (.arr [.num 1, .num 2]) = jsonStr (.arr [.num 1, .num 2]) :=
  ⟨row_materializer_correct.2.1 [("x", JSValue.str "1")] "y" (by decide),
   row_materializer_correct.2.2.2.2.2.2.1 (.arr [.num 1, .num 2]) rfl⟩

/-- C8: a rejected header fetch is swallowed by the `try/catch` of lines
129–138 and treated as "no header yet": the run does not abort — it carries
on (reaching the sink read and the append) exactly as it would against a
sheet with an empty header row. -/
theorem header_read_fault_treated_as_empty (now : Nat) (store : List StoredDoc)
    (sheet : Sheet) (h : (selectWindow now store).isEmpty = false) :
    runSync now store sheet true = runSync now store ⟨[], sheet.rows⟩ false
    ∧ (runSync now store sheet true).2.headerRead = true := by
  constructor <;> simp [runSync, runSyncCore, h]

/-- Witness for C8 at a concrete input: one in-window document, a sheet
that already has a header; the faulted run equals the empty-header run. -/
theorem header_read_fault_treated_as_empty_witness :
    (selectWindow exT [exDoc5]).isEmpty = false
    ∧ runSync exT [exDoc5] exSheetAB true
        = runSync exT [exDoc5] ⟨[], exSheetAB.rows⟩ false :=
  ⟨rfl, (header_read_fault_treated_as_empty exT [exDoc5] exSheetAB rfl).1⟩

/-- C1 counterexample: destination identifier column holds {A, B}; window
candidates are {A, B, C}.  The claim says only the row for C is appended;
the code (which never reads the destination's identifier column, lines
104–124 and 179–185) appends all three rows, duplicates included. -/
theorem dedup_filtering_cex :
    (runSync exT [⟨exIdA, []⟩, ⟨exIdB, []⟩, ⟨exIdC, []⟩] exSheetAB false).2.appended
      = [[oidStr exIdA], [oidStr exIdB], [oidStr exIdC]]
    ∧ [[oidStr exIdA], [oidStr exIdB], [oidStr exIdC]] ≠ [[oidStr exIdC]] :=
  ⟨rfl, by decide⟩

/-- C1 (amended): no identifier-based filtering happens at all — every run
appends exactly one row per time-window candidate, regardless of what the
destination already contains; in the {A,B} / {A,B,C} scenario all of A, B
and C are appended. -/
theorem no_dedup_filtering :
    (∀ now store sheet fault,
        ((runSync now store sheet fault).2.appended).length
          = (selectWindow now store).length)
    ∧ (runSync exT [⟨exIdA, []⟩, ⟨exIdB, []⟩, ⟨exIdC, []⟩] exSheetAB false).2.appended
        = [[oidStr exIdA], [oidStr exIdB], [oidStr exIdC]] := by
  refine ⟨fun now store sheet fault => ?_, rfl⟩
  by_cases hE : (selectWindow now store).isEmpty = true
  · simp [runSync, hE, List.isEmpty_iff.mp hE]
  · simp [runSync, runSyncCore, hE]

/-- C3: the Window Selector.  `oidCutoff` has timestamp component exactly
`floor((now − 6h)/1000)` and is the least ObjectId with that timestamp;
the selected window is exactly the stored documents with `_id ≥ cutoff`,
sorted ascending by `_id`; and on the concrete T−7h/T−5h/T−1h store only
the T−5h and T−1h documents are selected, in order. -/
theorem window_selector_correct :
    (∀ now, oidTimestamp (oidCutoff now) = (now - 6 * 60 * 60 * 1000) / 1000)
    ∧ (∀ now oid, oidTimestamp oid = (now - 6 * 60 * 60 * 1000) / 1000 →
        oidCutoff now ≤ oid)
    ∧ (∀ now store d, d ∈ selectWindow now store ↔ d ∈ store ∧ oidCutoff now ≤ d.oid)
    ∧ (∀ now store, (selectWindow now store).Sorted (fun a b => a.oid ≤ b.oid))
    ∧ (selectWindow exT [exDoc7, exDoc5, exDoc1]).map StoredDoc.oid
        = [exDoc5.oid, exDoc1.oid] := by
  refine ⟨fun now => ?_, fun now oid h => ?_, fun now store d => ?_,
    fun now store => ?_, rfl⟩
  · simp [oidTimestamp, oidCutoff, oidFromTime]
  · rw [oidCutoff, oidFromTime, ← h, oidTimestamp]
    exact Nat.div_mul_le_self oid (2 ^ 64)
  · simp [selectWindow, List.mem_insertionSort, List.mem_filter]
  · haveI : IsTotal StoredDoc (fun a b => a.oid ≤ b.oid) :=
      ⟨fun a b => Nat.le_total _ _⟩
    haveI : IsTrans StoredDoc (fun a b => a.oid ≤ b.oid) :=
      ⟨fun a b c => Nat.le_trans⟩
    exact List.sorted_insertionSort _ _

/-- Witness for C3: an ObjectId whose timestamp component equals the cutoff
second of run instant `exT` is at or above the synthetic minimum. -/
theorem window_selector_correct_witness :
    oidTimestamp (1699978400 * 2 ^ 64 + 5) = (exT - 6 * 60 * 60 * 1000) / 1000
    ∧ oidCutoff exT ≤ 1699978400 * 2 ^ 64 + 5 :=
  ⟨by decide, window_selector_correct.2.1 exT (1699978400 * 2 ^ 64 + 5) (by decide)⟩

/-- Keep-first deduplication of a key stream: the canonical "first-seen
order" enumeration the spec asks for. -/
def firstOccur : List String → List String
  | [] => []
  | k :: rest => k :: firstOccur (rest.filter (fun x => x ≠ k))
termination_by l => l.length
decreasing_by simp_wf; exact Nat.lt_succ_of_le (List.length_filter_le _ _)

/-- The stream of keys the loop of lines 118–124 observes: each flattened
row's keys, in row order. -/
def keyStream (rows : List (List (String × JSValue))) : List String :=
  (rows.map (fun r => r.map Prod.fst)).flatten

theorem mem_setAdd {acc : List String} {k x : String} :
    x ∈ setAdd acc k ↔ x ∈ acc ∨ x = k := by
  unfold setAdd
  by_cases hk : k ∈ acc
  · rw [if_pos (by simpa using hk)]
    constructor
    · exact Or.inl
    · rintro (hx | rfl)
      · exact hx
      · exact hk
  · rw [if_neg (by simpa using hk)]
    simp

theorem mem_foldl_setAdd (s : List String) :
    ∀ (acc : List String) (x : String), x ∈ s.foldl setAdd acc ↔ x ∈ acc ∨ x ∈ s := by
  induction s with
  | nil => simp
  | cons a s ih =>
      intro acc x
      rw [List.foldl_cons, ih, mem_setAdd]
      simp
      tauto

theorem nodup_foldl_setAdd (s : List String) :
    ∀ acc : List String, acc.Nodup → (s.foldl setAdd acc).Nodup := by
  induction s with
  | nil => exact fun acc h => h
  | cons a s ih =>
      intro acc hacc
      rw [List.foldl_cons]
      apply ih
      unfold setAdd
      by_cases ha : a ∈ acc
      · rw [if_pos (by simpa using ha)]
        exact hacc
      · rw [if_neg (by simpa using ha)]
        refine List.Nodup.append hacc (List.nodup_singleton a) ?_
        intro x hx hxa
        simp at hxa
        subst hxa
        exact ha hx

theorem foldl_setAdd_eq_firstOccur (s : List String) :
    ∀ acc : List String,
      s.foldl setAdd acc = acc ++ firstOccur (s.filter (fun x => !acc.contains x)) := by
  induction s with
  | nil => simp [firstOccur]
  | cons a s ih =>
      intro acc
      by_cases ha : a ∈ acc
      · rw [List.foldl_cons]
        have hsa : setAdd acc a = acc := by
          unfold setAdd
          rw [if_pos (by simpa using ha)]
        rw [hsa, List.filter_cons_of_neg (by simpa using ha), ih]
      · rw [List.foldl_cons]
        have hsa : setAdd acc a = acc ++ [a] := by
          unfold setAdd
          rw [if_neg (by simpa using ha)]
        rw [hsa, List.filter_cons_of_pos (by simpa using ha), ih]
        have hfilter : s.filter (fun x => !(acc ++ [a]).contains x)
            = (s.filter (fun x => !acc.contains x)).filter (fun x => x ≠ a) := by
          rw [List.filter_filter]
          apply List.filter_congr
          intro x hx
          by_cases hxa : x = a <;> by_cases hxacc : x ∈ acc <;>
            simp_all
        rw [hfilter, firstOccur]
        simp

theorem collectKeys_eq_foldl_keyStream (rows : List (List (String × JSValue))) :
    collectKeys rows = (keyStream rows).foldl setAdd [] := by
  suffices h : ∀ acc, rows.foldl (fun acc r => (r.map Prod.fst).foldl setAdd acc) acc
      = (keyStream rows).foldl setAdd acc from h []
  induction rows with
  | nil => intro acc; rfl
  | cons r rows ih =>
      intro acc
      rw [List.foldl_cons, ih]
      show _ = ((r.map Prod.fst ++ keyStream rows).foldl setAdd acc)
      rw [List.foldl_append]

/-- C5: the Schema Unifier.  With a non-empty existing header, lines
141–145 return the existing header unchanged followed by exactly the
observed keys not already present; with an empty existing header they
return the observed key list itself.  The observed key list (the JS `Set`
of lines 117–124) is precisely the keep-first deduplication of the key
stream in first-seen order across records: duplicate-free, and containing
a key iff some flattened row of the run has it. -/
theorem schema_unifier_correct :
    (∀ existing ks : List String, existing ≠ [] →
        unifyHeaders existing ks = existing ++ ks.filter (fun k => !existing.contains k))
    ∧ (∀ ks, unifyHeaders [] ks = ks)
    ∧ (∀ rows, collectKeys rows = firstOccur (keyStream rows))
    ∧ (∀ rows, (collectKeys rows).Nodup)
    ∧ (∀ rows k, k ∈ collectKeys rows ↔ ∃ r ∈ rows, k ∈ r.map Prod.fst) := by
  refine ⟨fun existing ks h => ?_, fun ks => rfl, fun rows => ?_, fun rows => ?_,
    fun rows k => ?_⟩
  · simp [unifyHeaders, List.length_pos.mpr h]
  · rw [collectKeys_eq_foldl_keyStream, foldl_setAdd_eq_firstOccur]
    simp
  · rw [collectKeys_eq_foldl_keyStream]
    exact nodup_foldl_setAdd _ [] List.nodup_nil
  · rw [collectKeys_eq_foldl_keyStream, mem_foldl_setAdd]
    simp [keyStream, List.mem_flatten]

/-- Witness for C5: a non-empty existing header `["a"]` with observed keys
`["a", "b"]` unifies to the existing column followed by the novel `"b"`. -/
theorem schema_unifier_correct_witness :
    (["a"] : List String) ≠ []
    ∧ unifyHeaders ["a"] ["a", "b"]
        = ["a"] ++ (["a", "b"].filter (fun k => !(["a"] : List String).contains k)) :=
  ⟨by decide, schema_unifier_correct.1 ["a"] ["a", "b"] (by decide)⟩

theorem map_fst_insertFlat_cases (out : List (String × JSValue)) (k : String)
    (v : JSValue) :
    (insertFlat out k v).map Prod.fst = out.map Prod.fst
    ∨ (insertFlat out k v).map Prod.fst = out.map Prod.fst ++ [k] := by
  unfold insertFlat
  by_cases h : out.any (fun p => p.1 = k) = true
  · left
    rw [if_pos h, List.map_map]
    clear h
    induction out with
    | nil => rfl
    | cons p rest ih =>
        simp only [List.map_cons, ih, Function.comp]
        by_cases hp : p.1 = k
        · rw [if_pos hp]
          simp [hp]
        · rw [if_neg hp]
  · right
    rw [if_neg h]
    simp

/-- `out[key] = v` never disturbs the keys already present: the old key
sequence is a prefix of the new one. -/
theorem map_fst_prefix_insertFlat (out : List (String × JSValue)) (k : String)
    (v : JSValue) :
    out.map Prod.fst <+: (insertFlat out k v).map Prod.fst := by
  rcases map_fst_insertFlat_cases out k v with h | h <;> rw [h]
  exact List.prefix_append _ _

mutual
/-- `flatten` only ever extends the accumulated key sequence at the end. -/
theorem map_fst_prefix_flatten : ∀ (v : JSValue) (pre : String)
    (out : List (String × JSValue)),
    out.map Prod.fst <+: (flatten v pre out).map Prod.fst
  | .null, pre, out => map_fst_prefix_insertFlat out (stripDot pre) _
  | .str s, pre, out => map_fst_prefix_insertFlat out (stripDot pre) _
  | .num n, pre, out => map_fst_prefix_insertFlat out (stripDot pre) _
  | .bool b, pre, out => map_fst_prefix_insertFlat out (stripDot pre) _
  | .date i d, pre, out => map_fst_prefix_insertFlat out (stripDot pre) _
  | .arr xs, pre, out => map_fst_prefix_insertFlat out (stripDot pre) _
  | .obj fields, pre, out => map_fst_prefix_flattenFields fields pre out

theorem map_fst_prefix_flattenFields : ∀ (l : List (String × JSValue)) (pre : String)
    (out : List (String × JSValue)),
    out.map Prod.fst <+: (flattenFields l pre out).map Prod.fst
  | [], _, out => List.prefix_rfl
  | (k, v) :: rest, pre, out =>
      List.IsPrefix.trans (map_fst_prefix_flatten v (pre ++ k ++ ".") out)
        (map_fst_prefix_flattenFields rest pre _)
end

/-- Every flattened document carries an `_id` column: the stringified
ObjectId is assigned first and later fields never remove it. -/
theorem mem_id_docToFlat (d : StoredDoc) : "_id" ∈ (docToFlat d).map Prod.fst := by
  show "_id" ∈ (flattenFields d.fields ""
      (flatten (.str (oidStr d.oid)) ("" ++ "_id" ++ ".") [])).map Prod.fst
  have h1 : flatten (.str (oidStr d.oid)) ("" ++ "_id" ++ ".") []
      = [("_id", .str (oidStr d.oid))] := rfl
  rw [h1]
  exact (map_fst_prefix_flattenFields d.fields "" _).subset (by simp)

theorem mem_collectKeys_of_mem (rows : List (List (String × JSValue)))
    (r : List (String × JSValue)) (k : String) (hr : r ∈ rows)
    (hk : k ∈ r.map Prod.fst) : k ∈ collectKeys rows := by
  rw [collectKeys_eq_foldl_keyStream, mem_foldl_setAdd]
  right
  simp only [keyStream, List.mem_flatten, List.mem_map]
  exact ⟨r.map Prod.fst, ⟨r, hr, rfl⟩, hk⟩

theorem unifyHeaders_nonempty (existing ks : List String) (h : existing ≠ []) :
    unifyHeaders existing ks
      = existing ++ ks.filter (fun k => !existing.contains k) := by
  simp [unifyHeaders, List.length_pos.mpr h]

/-- The keys a run observes: the header set collected over the flattened
window documents. -/
def windowKeys (now : Nat) (store : List StoredDoc) : List String :=
  collectKeys ((selectWindow now store).map docToFlat)

theorem prefix_unifyHeaders (existing ks : List String) :
    existing <+: unifyHeaders existing ks := by
  cases hex : existing with
  | nil => exact List.nil_prefix
  | cons a t =>
      rw [← hex, unifyHeaders_nonempty existing ks (by rw [hex]; simp)]
      exact List.prefix_append _ _

theorem subset_unifyHeaders (existing ks : List String) :
    ∀ k ∈ ks, k ∈ unifyHeaders existing ks := by
  intro k hk
  cases hex : existing with
  | nil => exact hk
  | cons a t =>
      rw [← hex, unifyHeaders_nonempty existing ks (by rw [hex]; simp)]
      rw [List.mem_append]
      by_cases hke : k ∈ existing
      · exact Or.inl hke
      · refine Or.inr (List.mem_filter.mpr ⟨hk, ?_⟩)
        simpa using hke

theorem unifyHeaders_of_subset (existing ks : List String)
    (h : ∀ k ∈ ks, k ∈ existing) : unifyHeaders existing ks = existing := by
  cases hex : existing with
  | nil =>
      cases hks : ks with
      | nil => rfl
      | cons k t =>
          subst hex hks
          exact absurd (h k (by simp)) (List.not_mem_nil k)
  | cons a t =>
      rw [← hex, unifyHeaders_nonempty existing ks (by rw [hex]; simp)]
      have : ks.filter (fun k => !existing.contains k) = [] := by
        rw [List.filter_eq_nil_iff]
        intro k hk
        simpa using h k hk
      rw [this, List.append_nil]

/-- The final header of a (non-empty-window, fault-free) run is always the
unified header, whether or not a header write happened. -/
theorem runSyncCore_final_header (now : Nat) (store : List StoredDoc) (sheet : Sheet) :
    (runSyncCore now store sheet false).1.header
      = unifyHeaders sheet.header (windowKeys now store) := by
  simp only [runSyncCore, windowKeys, Bool.false_eq_true, if_false]
  by_cases h0 : sheet.header.length = 0
  · rw [if_pos h0]
  · rw [if_neg h0]
    have hne : sheet.header ≠ [] := by
      intro h
      rw [h] at h0
      exact h0 rfl
    by_cases hlt : sheet.header.length
        < (unifyHeaders sheet.header (collectKeys ((selectWindow now store).map docToFlat))).length
    · rw [if_pos hlt]
    · rw [if_neg hlt]
      rw [unifyHeaders_nonempty _ _ hne] at hlt ⊢
      rw [List.length_append] at hlt
      have : (List.filter (fun k => !sheet.header.contains k)
          (collectKeys ((selectWindow now store).map docToFlat))).length = 0 := by omega
      rw [List.length_eq_zero] at this
      rw [this, List.append_nil]

/-- The header write of a (non-empty-window, fault-free) run happens
exactly when the unified header differs from the existing one, provided at
least one key was observed. -/
theorem runSyncCore_headerWrite (now : Nat) (store : List StoredDoc) (sheet : Sheet)
    (hks : windowKeys now store ≠ []) :
    (runSyncCore now store sheet false).2.headerWrite
      = (if unifyHeaders sheet.header (windowKeys now store) = sheet.header then none
         else some (unifyHeaders sheet.header (windowKeys now store))) := by
  simp only [runSyncCore, windowKeys, Bool.false_eq_true, if_false] at *
  cases hH : sheet.header with
  | nil =>
      rw [if_pos (show ([] : List String).length = 0 from rfl)]
      rw [if_neg]
      intro hu
      exact hks (by simpa [unifyHeaders] using hu)
  | cons a t =>
      rw [if_neg (by simp)]
      have hne : (a :: t : List String) ≠ [] := by simp
      rw [unifyHeaders_nonempty _ _ hne]
      by_cases hm : (List.filter (fun k => !(a :: t : List String).contains k)
          (collectKeys ((selectWindow now store).map docToFlat))) = []
      · rw [hm, List.append_nil]
        rw [if_neg (by simp), if_pos rfl]
      · rw [if_pos, if_neg]
        · intro h
          exact hm (by simpa using h)
        · rw [List.length_append]
          have : 0 < (List.filter (fun k => !(a :: t : List String).contains k)
              (collectKeys ((selectWindow now store).map docToFlat))).length :=
            List.length_pos.mpr hm
          omega

/-- A run with a non-empty window always observes the `_id` key. -/
theorem windowKeys_ne_nil (now : Nat) (store : List StoredDoc)
    (h : selectWindow now store ≠ []) : windowKeys now store ≠ [] := by
  obtain ⟨d, rest, hW⟩ : ∃ d rest, selectWindow now store = d :: rest := by
    cases hW : selectWindow now store with
    | nil => exact absurd hW h
    | cons d rest => exact ⟨d, rest, rfl⟩
  have hid : "_id" ∈ windowKeys now store := by
    rw [windowKeys, hW]
    exact mem_collectKeys_of_mem _ (docToFlat d) _ (by simp) (mem_id_docToFlat d)
  intro h0
  rw [h0] at hid
  exact absurd hid (List.not_mem_nil _)

theorem runSyncCore_appended (now : Nat) (store : List StoredDoc) (sheet : Sheet)
    (fault : Bool) :
    (runSyncCore now store sheet fault).2.appended
      = ((selectWindow now store).map docToFlat).map
          (fun r => materializeRow
            (unifyHeaders (if fault then [] else sheet.header) (windowKeys now store)) r) :=
  rfl

/-- C4: header evolution.  Over any run (with a working header read) the
old header is a prefix of the new one — existing column positions never
change and no column is removed — and the header row is written (in full,
before the data append) exactly when the unified header differs from the
existing one, which subsumes the "no header yet" case. -/
theorem header_monotonic_and_write_condition :
    ∀ (now : Nat) (store : List StoredDoc) (sheet : Sheet),
      sheet.header <+: (runSync now store sheet false).1.header
      ∧ (runSync now store sheet false).2.headerWrite
          = (if (selectWindow now store).isEmpty then none
             else if unifyHeaders sheet.header (windowKeys now store) = sheet.header
               then none
               else some (unifyHeaders sheet.header (windowKeys now store))) := by
  intro now store sheet
  by_cases hE : (selectWindow now store).isEmpty = true
  · constructor
    · simp [runSync, hE]
    · simp [runSync, hE]
  · have hEf : (selectWindow now store).isEmpty = false := by simpa using hE
    have hne : selectWindow now store ≠ [] := by
      intro h0
      rw [h0] at hEf
      simp at hEf
    have hrun : runSync now store sheet false = runSyncCore now store sheet false := by
      rw [runSync]
      simp [hEf]
    constructor
    · rw [hrun, runSyncCore_final_header]
      exact prefix_unifyHeaders _ _
    · rw [hrun, runSyncCore_headerWrite now store sheet (windowKeys_ne_nil now store hne),
        hEf]
      simp

/-- C2 counterexample: one in-window document, two successive runs with the
same store and time.  The claim says the second run appends zero rows; it
appends the document's row again. -/
theorem idempotence_cex :
    (runSync exT [exDoc5] (runSync exT [exDoc5] ⟨[], []⟩ false).1 false).2.appended
      = [[oidStr exDoc5.oid]]
    ∧ [[oidStr exDoc5.oid]] ≠ ([] : List (List String)) :=
  ⟨rfl, by decide⟩

/-- C2 (amended): running the pipeline twice with the same store and run
instant is NOT idempotent in rows — the second run appends exactly the
same rows as the first run (one per window candidate, zero only when the
window itself is empty).  The header, however, is stable: the second run
performs no header write and leaves the header unchanged. -/
theorem rerun_appends_same_rows :
    ∀ (now : Nat) (store : List StoredDoc) (sheet : Sheet),
      (runSync now store (runSync now store sheet false).1 false).2.appended
        = (runSync now store sheet false).2.appended
      ∧ (runSync now store (runSync now store sheet false).1 false).2.headerWrite = none
      ∧ (runSync now store (runSync now store sheet false).1 false).1.header
          = (runSync now store sheet false).1.header := by
  intro now store sheet
  by_cases hE : (selectWindow now store).isEmpty = true
  · have h1 : runSync now store sheet false = (sheet, ⟨false, none, []⟩) := by
      simp [runSync, hE]
    simp [h1]
  · have hEf : (selectWindow now store).isEmpty = false := by simpa using hE
    have hne : selectWindow now store ≠ [] := by
      intro h0
      rw [h0] at hEf
      simp at hEf
    have hks := windowKeys_ne_nil now store hne
    have hrun : ∀ sh : Sheet, runSync now store sh false = runSyncCore now store sh false := by
      intro sh
      rw [runSync]
      simp [hEf]
    rw [hrun sheet]
    set s1 := (runSyncCore now store sheet false).1 with hs1
    rw [hrun s1]
    have h1h : s1.header = unifyHeaders sheet.header (windowKeys now store) :=
      runSyncCore_final_header now store sheet
    have hsub : ∀ k ∈ windowKeys now store, k ∈ s1.header := by
      rw [h1h]
      exact subset_unifyHeaders _ _
    have hu2 : unifyHeaders s1.header (windowKeys now store) = s1.header :=
      unifyHeaders_of_subset _ _ hsub
    refine ⟨?_, ?_, ?_⟩
    · rw [runSyncCore_appended, runSyncCore_appended]
      simp only [Bool.false_eq_true, if_false]
      rw [hu2, h1h]
    · rw [runSyncCore_headerWrite now store s1 hks, if_pos hu2]
    · rw [runSyncCore_final_header now store s1, hu2, h1h]

mutual
/-- No array value anywhere in the record (hypothesis of the flatten
shape claim). -/
def noArrays : JSValue → Bool
  | .arr _ => false
  | .obj fields => noArraysFields fields
  | _ => true

def noArraysFields : List (String × JSValue) → Bool
  | [] => true
  | (_, v) :: rest => noArrays v && noArraysFields rest
end

/-- Duplicate-freedom of a key list, as a Boolean. -/
def nodupB : List String → Bool
  | [] => true
  | k :: rest => !rest.contains k && nodupB rest

mutual
/-- Well-formedness a genuine JS object tree always has, plus the claim's
separator hypothesis: at every level the field names are pairwise distinct
(JS objects cannot repeat keys) and contain no `'.'`. -/
def wfDoc : JSValue → Bool
  | .obj fields =>
      nodupB (fields.map Prod.fst)
        && (fields.map Prod.fst).all (fun k => !(k.data.contains '.'))
        && wfDocFields fields
  | _ => true

def wfDocFields : List (String × JSValue) → Bool
  | [] => true
  | (_, v) :: rest => wfDoc v && wfDocFields rest
end

mutual
/-- The number of scalar leaves (`null`, strings, numbers, booleans,
dates) of a record; arrays are not scalars and plain objects recurse. -/
def scalarLeaves : JSValue → Nat
  | .arr _ => 0
  | .obj fields => scalarLeavesFields fields
  | _ => 1

def scalarLeavesFields : List (String × JSValue) → Nat
  | [] => 0
  | (_, v) :: rest => scalarLeaves v + scalarLeavesFields rest
end

mutual
/-- The keys `flatten` assigns, in assignment order. -/
def flatKeys : JSValue → String → List String
  | .obj fields, pre => flatKeysFields fields pre
  | _, pre => [stripDot pre]

def flatKeysFields : List (String × JSValue) → String → List String
  | [], _ => []
  | (k, v) :: rest, pre => flatKeys v (pre ++ k ++ ".") ++ flatKeysFields rest pre
end

/-- A fresh key is appended at the end by `out[key] = v`. -/
theorem insertFlat_fresh (out : List (String × JSValue)) (k : String) (v : JSValue)
    (h : k ∉ out.map Prod.fst) : insertFlat out k v = out ++ [(k, v)] := by
  unfold insertFlat
  rw [if_neg]
  intro hany
  rw [List.any_eq_true] at hany
  obtain ⟨p, hp, hpk⟩ := hany
  exact h (List.mem_map.mpr ⟨p, hp, by simpa using hpk⟩)

mutual
/-- When the keys `flatten` is about to assign are pairwise distinct and
absent from the accumulator, every assignment appends: the final key
sequence is the old one followed by `flatKeys`. -/
theorem flatten_map_fst_of_fresh : ∀ (v : JSValue) (pre : String)
    (out : List (String × JSValue)),
    (flatKeys v pre).Nodup → (∀ k ∈ flatKeys v pre, k ∉ out.map Prod.fst) →
    (flatten v pre out).map Prod.fst = out.map Prod.fst ++ flatKeys v pre
  | .null, pre, out, _, hfresh => by
      rw [show flatten .null pre out = insertFlat out (stripDot pre) .null from rfl,
        insertFlat_fresh out _ _ (hfresh _ (by simp [flatKeys]))]
      simp [flatKeys]
  | .str s, pre, out, _, hfresh => by
      rw [show flatten (.str s) pre out = insertFlat out (stripDot pre) (.str s) from rfl,
        insertFlat_fresh out _ _ (hfresh _ (by simp [flatKeys]))]
      simp [flatKeys]
  | .num n, pre, out, _, hfresh => by
      rw [show flatten (.num n) pre out = insertFlat out (stripDot pre) (.num n) from rfl,
        insertFlat_fresh out _ _ (hfresh _ (by simp [flatKeys]))]
      simp [flatKeys]
  | .bool b, pre, out, _, hfresh => by
      rw [show flatten (.bool b) pre out = insertFlat out (stripDot pre) (.bool b) from rfl,
        insertFlat_fresh out _ _ (hfresh _ (by simp [flatKeys]))]
      simp [flatKeys]
  | .date i d, pre, out, _, hfresh => by
      rw [show flatten (.date i d) pre out = insertFlat out (stripDot pre) (.date i d) from rfl,
        insertFlat_fresh out _ _ (hfresh _ (by simp [flatKeys]))]
      simp [flatKeys]
  | .arr xs, pre, out, _, hfresh => by
      rw [show flatten (.arr xs) pre out = insertFlat out (stripDot pre) (.arr xs) from rfl,
        insertFlat_fresh out _ _ (hfresh _ (by simp [flatKeys]))]
      simp [flatKeys]
  | .obj fields, pre, out, hnd, hfresh => by
      rw [show flatten (.obj fields) pre out = flattenFields fields pre out from rfl,
        show flatKeys (.obj fields) pre = flatKeysFields fields pre from rfl] at *
      exact flattenFields_map_fst_of_fresh fields pre out hnd hfresh

theorem flattenFields_map_fst_of_fresh : ∀ (l : List (String × JSValue)) (pre : String)
    (out : List (String × JSValue)),
    (flatKeysFields l pre).Nodup → (∀ k ∈ flatKeysFields l pre, k ∉ out.map Prod.fst) →
    (flattenFields l pre out).map Prod.fst = out.map Prod.fst ++ flatKeysFields l pre
  | [], _, out, _, _ => by simp [flattenFields, flatKeysFields]
  | (k, v) :: rest, pre, out, hnd, hfresh => by
      rw [show flatKeysFields ((k, v) :: rest) pre
          = flatKeys v (pre ++ k ++ ".") ++ flatKeysFields rest pre from rfl] at hnd hfresh ⊢
      rw [List.nodup_append] at hnd
      obtain ⟨hnd1, hnd2, hdisj⟩ := hnd
      have h1 : (flatten v (pre ++ k ++ ".") out).map Prod.fst
          = out.map Prod.fst ++ flatKeys v (pre ++ k ++ ".") :=
        flatten_map_fst_of_fresh v _ out hnd1
          (fun x hx => hfresh x (List.mem_append.mpr (Or.inl hx)))
      have h2 : (flattenFields rest pre (flatten v (pre ++ k ++ ".") out)).map Prod.fst
          = (flatten v (pre ++ k ++ ".") out).map Prod.fst ++ flatKeysFields rest pre := by
        refine flattenFields_map_fst_of_fresh rest pre _ hnd2 ?_
        intro x hx
        rw [h1, List.mem_append]
        rintro (hxout | hxv)
        · exact hfresh x (List.mem_append.mpr (Or.inr hx)) hxout
        · exact hdisj hxv hx
      rw [show flattenFields ((k, v) :: rest) pre out
          = flattenFields rest pre (flatten v (pre ++ k ++ ".") out) from rfl,
        h2, h1, List.append_assoc]
end

mutual
/-- Without arrays, `flatten` assigns exactly one key per scalar leaf. -/
theorem length_flatKeys : ∀ (v : JSValue) (pre : String), noArrays v = true →
    (flatKeys v pre).length = scalarLeaves v
  | .null, _, _ => rfl
  | .str _, _, _ => rfl
  | .num _, _, _ => rfl
  | .bool _, _, _ => rfl
  | .date _ _, _, _ => rfl
  | .arr _, _, h => by simp [noArrays] at h
  | .obj fields, pre, h => by
      rw [show flatKeys (.obj fields) pre = flatKeysFields fields pre from rfl,
        show scalarLeaves (.obj fields) = scalarLeavesFields fields from rfl]
      exact length_flatKeysFields fields pre (by simpa [noArrays] using h)

theorem length_flatKeysFields : ∀ (l : List (String × JSValue)) (pre : String),
    noArraysFields l = true → (flatKeysFields l pre).length = scalarLeavesFields l
  | [], _, _ => rfl
  | (k, v) :: rest, pre, h => by
      have h' : noArrays v = true ∧ noArraysFields rest = true := by
        simpa [noArraysFields, Bool.and_eq_true] using h
      rw [show flatKeysFields ((k, v) :: rest) pre
          = flatKeys v (pre ++ k ++ ".") ++ flatKeysFields rest pre from rfl,
        List.length_append, length_flatKeys v _ h'.1, length_flatKeysFields rest pre h'.2]
      rfl
end

mutual
/-- The leaf positions of a record, as key paths from the root. -/
def leafPaths : JSValue → List (List String)
  | .obj fields => leafPathsFields fields
  | _ => [[]]

def leafPathsFields : List (String × JSValue) → List (List String)
  | [] => []
  | (k, v) :: rest => (leafPaths v).map (fun p => k :: p) ++ leafPathsFields rest
end

/-- The dotted spelling of a path, one trailing dot per segment — the form
`flatten`'s prefix takes before the final strip. -/
def dotted : List String → String
  | [] => ""
  | s :: rest => s ++ "." ++ dotted rest

theorem str_empty_append (s : String) : "" ++ s = s := by
  apply String.ext
  rw [String.data_append]
  rfl

theorem str_append_empty (s : String) : s ++ "" = s := by
  apply String.ext
  rw [String.data_append]
  simp

theorem dotted_data_cons (s : String) (rest : List String) :
    (dotted (s :: rest)).data = s.data ++ '.' :: (dotted rest).data := by
  show ((s ++ ".") ++ dotted rest).data = _
  rw [String.data_append, String.data_append]
  rw [List.append_assoc]
  rfl

/-- A dot-free chunk before the first `'.'` is determined: the dotted
encoding is a prefix-free code. -/
theorem append_dot_inj : ∀ (l₁ l₂ t₁ t₂ : List Char), '.' ∉ l₁ → '.' ∉ l₂ →
    l₁ ++ '.' :: t₁ = l₂ ++ '.' :: t₂ → l₁ = l₂ ∧ t₁ = t₂ := by
  intro l₁
  induction l₁ with
  | nil =>
      intro l₂ t₁ t₂ _ h₂ heq
      cases l₂ with
      | nil => simpa using heq
      | cons b bs =>
          simp only [List.nil_append, List.cons_append] at heq
          injection heq with hb htail
          exact absurd (by rw [hb]; exact List.mem_cons_self b bs) h₂
  | cons a as ih =>
      intro l₂ t₁ t₂ h₁ h₂ heq
      cases l₂ with
      | nil =>
          simp only [List.cons_append, List.nil_append] at heq
          injection heq with ha htail
          exact absurd (by rw [← ha]; exact List.mem_cons_self a as) h₁
      | cons b bs =>
          simp only [List.cons_append] at heq
          injection heq with hab htail
          have hr := ih bs t₁ t₂ (fun h => h₁ (List.mem_cons_of_mem _ h))
            (fun h => h₂ (List.mem_cons_of_mem _ h)) htail
          exact ⟨by rw [hab, hr.1], hr.2⟩

theorem dotted_inj : ∀ (p₁ p₂ : List String),
    (∀ s ∈ p₁, '.' ∉ s.data) → (∀ s ∈ p₂, '.' ∉ s.data) →
    dotted p₁ = dotted p₂ → p₁ = p₂ := by
  intro p₁
  induction p₁ with
  | nil =>
      intro p₂ _ _ heq
      cases p₂ with
      | nil => rfl
      | cons b bs =>
          have hd := congrArg String.data heq
          rw [dotted_data_cons] at hd
          exact absurd hd.symm (by simp [dotted])
  | cons a as ih =>
      intro p₂ h₁ h₂ heq
      cases p₂ with
      | nil =>
          have hd := congrArg String.data heq
          rw [dotted_data_cons] at hd
          exact absurd hd (by simp [dotted])
  
      | cons b bs =>
          have hd := congrArg String.data heq
          rw [dotted_data_cons, dotted_data_cons] at hd
          have h := append_dot_inj a.data b.data _ _ (h₁ a (by simp)) (h₂ b (by simp)) hd
          have hab : a = b := String.ext h.1
          have htail : dotted as = dotted bs := String.ext h.2
          rw [hab, ih bs (fun s hs => h₁ s (by simp [hs])) (fun s hs => h₂ s (by simp [hs]))
            htail]

theorem dotted_data_ends : ∀ (p : List String), p ≠ [] →
    ∃ l, (dotted p).data = l ++ ['.'] := by
  intro p
  induction p with
  | nil => exact fun h => absurd rfl h
  | cons s rest ih =>
      intro _
      cases hr : rest with
      | nil =>
          refine ⟨s.data, ?_⟩
          rw [dotted_data_cons]
          rfl
      | cons s2 r2 =>
          obtain ⟨l, hl⟩ := ih (by rw [hr]; simp)
          refine ⟨s.data ++ '.' :: l, ?_⟩
          rw [dotted_data_cons, ← hr, hl]
          simp

theorem stripDot_of_ends (s : String) (l : List Char) (h : s.data = l ++ ['.']) :
    stripDot s = ⟨l⟩ := by
  unfold stripDot
  rw [if_pos (by rw [h]; exact List.getLast?_concat _)]
  show String.mk s.data.dropLast = String.mk l
  rw [h, List.dropLast_concat]

theorem stripDot_dotted_inj (p₁ p₂ : List String)
    (hne₁ : p₁ ≠ []) (hne₂ : p₂ ≠ [])
    (hd₁ : ∀ s ∈ p₁, '.' ∉ s.data) (hd₂ : ∀ s ∈ p₂, '.' ∉ s.data)
    (heq : stripDot (dotted p₁) = stripDot (dotted p₂)) : p₁ = p₂ := by
  obtain ⟨l₁, hl₁⟩ := dotted_data_ends p₁ hne₁
  obtain ⟨l₂, hl₂⟩ := dotted_data_ends p₂ hne₂
  rw [stripDot_of_ends _ _ hl₁, stripDot_of_ends _ _ hl₂] at heq
  have hll : l₁ = l₂ := congrArg String.data heq
  have hdd : dotted p₁ = dotted p₂ := String.ext (by rw [hl₁, hl₂, hll])
  exact dotted_inj p₁ p₂ hd₁ hd₂ hdd

mutual
/-- The keys `flatten` assigns are exactly the leaf paths spelled as
dotted strings under the given prefix. -/
theorem flatKeys_eq_paths : ∀ (v : JSValue) (pre : String),
    flatKeys v pre = (leafPaths v).map (fun p => stripDot (pre ++ dotted p))
  | .null, pre => by
      show [stripDot pre] = [stripDot (pre ++ dotted [])]
      rw [show dotted [] = "" from rfl, str_append_empty]
  | .str s, pre => by
      show [stripDot pre] = [stripDot (pre ++ dotted [])]
      rw [show dotted [] = "" from rfl, str_append_empty]
  | .num n, pre => by
      show [stripDot pre] = [stripDot (pre ++ dotted [])]
      rw [show dotted [] = "" from rfl, str_append_empty]
  | .bool b, pre => by
      show [stripDot pre] = [stripDot (pre ++ dotted [])]
      rw [show dotted [] = "" from rfl, str_append_empty]
  | .date i d, pre => by
      show [stripDot pre] = [stripDot (pre ++ dotted [])]
      rw [show dotted [] = "" from rfl, str_append_empty]
  | .arr xs, pre => by
      show [stripDot pre] = [stripDot (pre ++ dotted [])]
      rw [show dotted [] = "" from rfl, str_append_empty]
  | .obj fields, pre => flatKeysFields_eq_paths fields pre

theorem flatKeysFields_eq_paths : ∀ (l : List (String × JSValue)) (pre : String),
    flatKeysFields l pre = (leafPathsFields l).map (fun p => stripDot (pre ++ dotted p))
  | [], _ => rfl
  | (k, v) :: rest, pre => by
      show flatKeys v (pre ++ k ++ ".") ++ flatKeysFields rest pre
          = ((leafPaths v).map (fun p => k :: p) ++ leafPathsFields rest).map
              (fun p => stripDot (pre ++ dotted p))
      rw [List.map_append, List.map_map]
      rw [flatKeys_eq_paths v (pre ++ k ++ "."), flatKeysFields_eq_paths rest pre]
      have hfun : (fun p => stripDot (pre ++ k ++ "." ++ dotted p))
          = ((fun p => stripDot (pre ++ dotted p)) ∘ fun p => k :: p) := by
        funext p
        show stripDot ((pre ++ k ++ ".") ++ dotted p) = stripDot (pre ++ dotted (k :: p))
        congr 1
        show ((pre ++ k) ++ ".") ++ dotted p = pre ++ ((k ++ ".") ++ dotted p)
        simp [String.append_assoc]
      rw [hfun]
end

/-- Every path out of a field list starts with one of its keys. -/
theorem mem_leafPathsFields_head : ∀ (l : List (String × JSValue)) (p : List String),
    p ∈ leafPathsFields l → ∃ k q, p = k :: q ∧ k ∈ l.map Prod.fst := by
  intro l
  induction l with
  | nil =>
      intro p hp
      exact absurd hp (List.not_mem_nil p)
  | cons kv rest ih =>
      intro p hp
      obtain ⟨k0, v0⟩ := kv
      rw [show leafPathsFields ((k0, v0) :: rest)
          = (leafPaths v0).map (fun p => k0 :: p) ++ leafPathsFields rest from rfl,
        List.mem_append] at hp
      rcases hp with hp | hp
      · obtain ⟨q, _, rfl⟩ := List.mem_map.mp hp
        exact ⟨k0, q, rfl, by simp⟩
      · obtain ⟨k, q, hpq, hk⟩ := ih p hp
        exact ⟨k, q, hpq, by simp [hk]⟩

mutual
/-- Distinct leaves of a well-formed record have distinct paths. -/
theorem leafPaths_nodup : ∀ (v : JSValue), wfDoc v = true → (leafPaths v).Nodup
  | .null, _ => List.nodup_singleton _
  | .str _, _ => List.nodup_singleton _
  | .num _, _ => List.nodup_singleton _
  | .bool _, _ => List.nodup_singleton _
  | .date _ _, _ => List.nodup_singleton _
  | .arr _, _ => List.nodup_singleton _
  | .obj fields, h => by
      rw [show wfDoc (.obj fields)
          = (nodupB (fields.map Prod.fst)
              && (fields.map Prod.fst).all (fun k => !(k.data.contains '.'))
              && wfDocFields fields) from rfl,
        Bool.and_eq_true, Bool.and_eq_true] at h
      exact leafPathsFields_nodup fields h.1.1 h.2

theorem leafPathsFields_nodup : ∀ (l : List (String × JSValue)),
    nodupB (l.map Prod.fst) = true → wfDocFields l = true →
    (leafPathsFields l).Nodup
  | [], _, _ => List.nodup_nil
  | (k, v) :: rest, hnd, hwf => by
      rw [show nodupB (((k, v) :: rest).map Prod.fst)
          = (!(rest.map Prod.fst).contains k && nodupB (rest.map Prod.fst)) from rfl,
        Bool.and_eq_true] at hnd
      rw [show wfDocFields ((k, v) :: rest) = (wfDoc v && wfDocFields rest) from rfl,
        Bool.and_eq_true] at hwf
      rw [show leafPathsFields ((k, v) :: rest)
          = (leafPaths v).map (fun p => k :: p) ++ leafPathsFields rest from rfl,
        List.nodup_append]
      refine ⟨List.Nodup.map (fun a b hab => by injection hab) (leafPaths_nodup v hwf.1),
        leafPathsFields_nodup rest hnd.2 hwf.2, ?_⟩
      intro p hp1 hp2
      obtain ⟨q, _, rfl⟩ := List.mem_map.mp hp1
      obtain ⟨k', q', heq, hk'⟩ := mem_leafPathsFields_head rest _ hp2
      injection heq with hk _
      have hknot : k ∉ rest.map Prod.fst := by simpa using hnd.1
      exact hknot (hk ▸ hk')
end

mutual
/-- The path segments of a well-formed record contain no separator. -/
theorem leafPaths_dotfree : ∀ (v : JSValue), wfDoc v = true →
    ∀ p ∈ leafPaths v, ∀ s ∈ p, '.' ∉ s.data
  | .null, _ => by
      intro p hp s hs
      have hp' : p = [] := List.mem_singleton.mp hp
      subst hp'
      exact absurd hs (List.not_mem_nil s)
  | .str _, _ => by
      intro p hp s hs
      have hp' : p = [] := List.mem_singleton.mp hp
      subst hp'
      exact absurd hs (List.not_mem_nil s)
  | .num _, _ => by
      intro p hp s hs
      have hp' : p = [] := List.mem_singleton.mp hp
      subst hp'
      exact absurd hs (List.not_mem_nil s)
  | .bool _, _ => by
      intro p hp s hs
      have hp' : p = [] := List.mem_singleton.mp hp
      subst hp'
      exact absurd hs (List.not_mem_nil s)
  | .date _ _, _ => by
      intro p hp s hs
      have hp' : p = [] := List.mem_singleton.mp hp
      subst hp'
      exact absurd hs (List.not_mem_nil s)
  | .arr _, _ => by
      intro p hp s hs
      have hp' : p = [] := List.mem_singleton.mp hp
      subst hp'
      exact absurd hs (List.not_mem_nil s)
  | .obj fields, h => by
      rw [show wfDoc (.obj fields)
          = (nodupB (fields.map Prod.fst)
              && (fields.map Prod.fst).all (fun k => !(k.data.contains '.'))
              && wfDocFields fields) from rfl,
        Bool.and_eq_true, Bool.and_eq_true] at h
      exact leafPathsFields_dotfree fields h.1.2 h.2

theorem leafPathsFields_dotfree : ∀ (l : List (String × JSValue)),
    ((l.map Prod.fst).all (fun k => !(k.data.contains '.'))) = true →
    wfDocFields l = true →
    ∀ p ∈ leafPathsFields l, ∀ s ∈ p, '.' ∉ s.data
  | [], _, _ => by
      intro p hp
      exact absurd hp (List.not_mem_nil p)
  | (k, v) :: rest, hall, hwf => by
      intro p hp s hs
      rw [show ((k, v) :: rest).map Prod.fst = k :: rest.map Prod.fst from rfl,
        List.all_cons, Bool.and_eq_true] at hall
      rw [show wfDocFields ((k, v) :: rest) = (wfDoc v && wfDocFields rest) from rfl,
        Bool.and_eq_true] at hwf
      rw [show leafPathsFields ((k, v) :: rest)
          = (leafPaths v).map (fun p => k :: p) ++ leafPathsFields rest from rfl,
        List.mem_append] at hp
      rcases hp with hp | hp
      · obtain ⟨q, hq, rfl⟩ := List.mem_map.mp hp
        rcases List.mem_cons.mp hs with rfl | hsq
        · simpa using hall.1
        · exact leafPaths_dotfree v hwf.1 q hq s hsq
      · exact leafPathsFields_dotfree rest hall.2 hwf.2 p hp s hs
end

/-- C6: for a record with no array values, whose field names contain no
`'.'` separator and are duplicate-free at every level (as JS object keys
always are), the flattened row has exactly one key per scalar leaf
(`null`s included): the dotted-path encoding is injective on such records,
so no assignment ever overwrites another. -/
theorem flatten_count_eq_scalar_leaves (fields : List (String × JSValue))
    (hA : noArrays (.obj fields) = true) (hW : wfDoc (.obj fields) = true) :
    (flatten (.obj fields) "" []).length = scalarLeaves (.obj fields) := by
  have hpaths_nodup : (leafPaths (.obj fields)).Nodup := leafPaths_nodup _ hW
  have hfree : ∀ p ∈ leafPaths (.obj fields), ∀ s ∈ p, '.' ∉ s.data :=
    leafPaths_dotfree _ hW
  have hne : ∀ p ∈ leafPaths (.obj fields), p ≠ [] := by
    intro p hp
    obtain ⟨k, q, rfl, _⟩ := mem_leafPathsFields_head fields p hp
    simp
  have hnd : (flatKeys (.obj fields) "").Nodup := by
    rw [flatKeys_eq_paths]
    refine List.Nodup.map_on ?_ hpaths_nodup
    intro p₁ hp₁ p₂ hp₂ heq
    rw [str_empty_append, str_empty_append] at heq
    exact stripDot_dotted_inj p₁ p₂ (hne p₁ hp₁) (hne p₂ hp₂)
      (hfree p₁ hp₁) (hfree p₂ hp₂) heq
  have hmap := flatten_map_fst_of_fresh (.obj fields) "" [] hnd (by simp)
  have hlen : (flatten (.obj fields) "" []).length
      = (flatKeys (.obj fields) "").length := by
    have hc := congrArg List.length hmap
    simpa using hc
  rw [hlen]
  exact length_flatKeys _ "" hA

/-- Witness for C6: a two-level record with three scalar leaves (one of
them `null`) flattens to exactly three keys. -/
theorem flatten_count_eq_scalar_leaves_witness :
    noArrays (.obj [("a", .num 1), ("b", .obj [("c", .null), ("d", .str "x")])]) = true
    ∧ wfDoc (.obj [("a", .num 1), ("b", .obj [("c", .null), ("d", .str "x")])]) = true
    ∧ (flatten (.obj [("a", .num 1), ("b", .obj [("c", .null), ("d", .str "x")])]) "" []).length
        = scalarLeaves (.obj [("a", .num 1), ("b", .obj [("c", .null), ("d", .str "x")])]) :=
  ⟨by decide, by decide,
   flatten_count_eq_scalar_leaves [("a", .num 1), ("b", .obj [("c", .null), ("d", .str "x")])]
     (by decide) (by decide)⟩
